import Mathlib

set_option maxRecDepth 10000

/-!
Verification of the num2en number-to-English-words library.

The definitions below are a shallow embedding of `src/lib.rs`:
machine integers become `Nat` (unsigned) or `Int` (signed, with the
two's-complement cast made explicit as `% 2^bits`), `Vec<String>`
becomes `List String`, `Result` becomes `Except`, and the per-width
functions generated by the Rust macros become instances of the generic
definitions at the width's period count.
-/

namespace Num2En

/-- Embedding of `Vec::join(" ")` from the Rust standard library. -/
def joinWords : List String → String
  | [] => ""
  | [w] => w
  | w :: ws => w ++ " " ++ joinWords ws

/-- `lt100` (src/lib.rs:80-104): renders `n` in `[1, 100)` as a single,
possibly hyphenated, word.  The Rust function pushes the word onto a
`Vec`; here it is returned as a singleton list.  Callers guarantee
`n ≠ 0` (the Rust code would panic on 0 via index underflow). -/
def NUMS_SMALLER_THAN_20 : List String :=
  ["one", "two", "three", "four", "five", "six", "seven", "eight", "nine", "ten", "eleven",
   "twelve", "thirteen", "fourteen", "fifteen", "sixteen", "seventeen", "eighteen", "nineteen"]

def MULTIPLES_OF_10 : List String :=
  ["twenty", "thirty", "forty", "fifty", "sixty", "seventy", "eighty", "ninety"]

def lt100 (n : Nat) : List String :=
  if n < 20 then
    [NUMS_SMALLER_THAN_20.getD (n - 1) ""]
  else
    let tens := n / 10
    let ones := n % 10
    let word := MULTIPLES_OF_10.getD (tens - 2) ""
    if ones ≠ 0 then
      [word ++ "-" ++ NUMS_SMALLER_THAN_20.getD (ones - 1) ""]
    else
      [word]

/-- `lt1000` (src/lib.rs:68-78): renders `n` in `[0, 1000)`; renders
nothing for 0. -/
def lt1000 (n : Nat) : List String :=
  (if n / 100 ≠ 0 then lt100 (n / 100) ++ ["hundred"] else []) ++
  (if n % 100 ≠ 0 then lt100 (n % 100) else [])

/-- `PERIODS` (src/lib.rs:108-111): names of periods `10^(3k)`. -/
def PERIODS : List String :=
  ["thousand", "million", "billion", "trillion", "quadrillion", "quintillion",
   "sextillion", "septillion", "octillion", "nonillion", "decillion", "undecillion"]

def periodName (idx : Nat) : String := PERIODS.getD idx ""

/-- The period-scanning loop of `create_public_conversion_func_of_unsigned_int`
(src/lib.rs:149-159): for `idx` from `p - 1` down to `0` the group
`(n / 1000^(idx+1)) % 1000` is rendered followed by `PERIODS[idx]` when
it is non-zero, and skipped entirely when it is zero. -/
def periodGroups (n : Nat) : Nat → List String
  | 0 => []
  | p + 1 =>
    (if n / 1000 ^ (p + 1) % 1000 ≠ 0 then
      lt1000 (n / 1000 ^ (p + 1) % 1000) ++ [periodName p]
    else []) ++ periodGroups n p

/-- Body of the `create_public_conversion_func_of_unsigned_int` macro
(src/lib.rs:142-164), parameterized by `$num_of_periods`. -/
def to_words_unsigned (p : Nat) (n : Nat) : String :=
  if n = 0 then "zero"
  else joinWords (periodGroups n p ++ lt1000 (n % 1000))

/-- `u8_to_words` (src/lib.rs:195-202): the `u8` variant is written by
hand and calls `lt1000` directly. -/
def u8_to_words (n : Nat) : String :=
  if n = 0 then "zero"
  else joinWords (lt1000 n)

def u16_to_words (n : Nat) : String := to_words_unsigned 1 n
def u32_to_words (n : Nat) : String := to_words_unsigned 3 n
def u64_to_words (n : Nat) : String := to_words_unsigned 6 n
def usize_to_words (n : Nat) : String := to_words_unsigned 6 n
def u128_to_words (n : Nat) : String := to_words_unsigned 12 n

/-- `ORD_NUMS_EXCEPTIONS` (src/lib.rs:205-208). -/
def ORD_NUMS_EXCEPTIONS : List (String × String) :=
  [("one", "first"), ("two", "second"), ("three", "third"), ("five", "fifth"),
   ("eight", "eighth"), ("nine", "ninth"), ("twelve", "twelfth")]

/-- Embedding of `last_word.find('-')` followed by the two slices
`&last_word[..hyphen_index+1]` and `&last_word[hyphen_index+1..]`
(src/lib.rs:266-269): splits at the first hyphen, keeping the hyphen
at the end of the prefix. -/
def splitAtHyphen : List Char → Option (List Char × List Char)
  | [] => none
  | c :: cs =>
    if c = '-' then some ([c], cs)
    else
      match splitAtHyphen cs with
      | none => none
      | some (p, l) => some (c :: p, l)

/-- The final-token rewriting of the ordinal conversion
(src/lib.rs:263-278): split at a hyphen if present, then replace an
irregular word by its table entry, rewrite a trailing "y" to "ieth",
or append "th".  The byte-slice operations of the Rust code are
performed on the character list: `ends_with("y")` is "the last
character is 'y'" and `&last_word[.. len - 1]` is `dropLast`. -/
def ordinalizeLast (w : String) : String :=
  let pen_last : List Char × List Char :=
    match splitAtHyphen w.toList with
    | some (p, l) => (p, l)
    | none => ([], w.toList)
  let pen := String.mk pen_last.1
  let last := String.mk pen_last.2
  match (ORD_NUMS_EXCEPTIONS.find? (fun x => x.1 = last)).map (fun x => x.2) with
  | some ord => pen ++ ord
  | none =>
    if pen_last.2.getLast? = some 'y' then pen ++ String.mk pen_last.2.dropLast ++ "ieth"
    else pen ++ last ++ "th"

/-- Body of the `create_public_conversion_func_of_unsigned_int_ord` macro
(src/lib.rs:242-281).  The Rust code pops the last word (panicking if
the list were empty, which cannot happen for an in-range `n ≠ 0`) and
pushes its ordinalized form; the unreachable empty case is mapped to "". -/
def to_ord_words_unsigned (p : Nat) (n : Nat) : String :=
  if n = 0 then "zeroth"
  else
    let words := periodGroups n p ++ lt1000 (n % 1000)
    match words.getLast? with
    | none => ""
    | some last => joinWords (words.dropLast ++ [ordinalizeLast last])

def u16_to_ord_words (n : Nat) : String := to_ord_words_unsigned 1 n
def u32_to_ord_words (n : Nat) : String := to_ord_words_unsigned 3 n
def u64_to_ord_words (n : Nat) : String := to_ord_words_unsigned 6 n
def usize_to_ord_words (n : Nat) : String := to_ord_words_unsigned 6 n
def u128_to_ord_words (n : Nat) : String := to_ord_words_unsigned 12 n

/-- `u8_to_ord_words` (src/lib.rs:316) delegates to the `u16` variant. -/
def u8_to_ord_words (n : Nat) : String := u16_to_ord_words n

/-- Body of the `create_public_conversion_func_of_signed_int` macro
(src/lib.rs:351-383).  `bits` is the bit width of the signed type, `p`
its `$num_of_periods`.  The initial `n as UnsignedType` two's-complement
cast is `n % 2^bits` over `Int` (which is non-negative); it is replaced
by `(-n)` when `n` is negative but strictly above the type's minimum. -/
def to_words_signed (bits p : Nat) (n : Int) : String :=
  if n = 0 then "zero"
  else
    let mag : Nat :=
      if n < 0 then
        if -(2 ^ (bits - 1) : Int) < n then (-n).toNat
        else (n % (2 ^ bits : Int)).toNat
      else (n % (2 ^ bits : Int)).toNat
    joinWords ((if n < 0 then ["negative"] else []) ++
      periodGroups mag p ++ lt1000 (mag % 1000))

def i16_to_words (n : Int) : String := to_words_signed 16 1 n
def i32_to_words (n : Int) : String := to_words_signed 32 3 n
def i64_to_words (n : Int) : String := to_words_signed 64 6 n
def isize_to_words (n : Int) : String := to_words_signed 64 6 n
def i128_to_words (n : Int) : String := to_words_signed 128 12 n

/-- `i8_to_words` (src/lib.rs:426-440): hand-written `i8` variant,
calling `lt1000` directly on the magnitude. -/
def i8_to_words (n : Int) : String :=
  if n = 0 then "zero"
  else
    let mag : Nat :=
      if n < 0 then
        if -(128 : Int) < n then (-n).toNat
        else (n % (256 : Int)).toNat
      else (n % (256 : Int)).toNat
    joinWords ((if n < 0 then ["negative"] else []) ++ lt1000 mag)

/-- `DigitConversionError` (src/lib.rs:445-448). -/
inductive DigitConversionError where
  | InvalidCharacter
deriving DecidableEq

/-- The digit table of `str_digits_to_words` (src/lib.rs:488-500): the
Rust `match` on a character is a chain of equality tests, with the
catch-all arm returning the error (here `none`). -/
def digitWord (c : Char) : Option String :=
  if c = '0' then some "zero"
  else if c = '1' then some "one"
  else if c = '2' then some "two"
  else if c = '3' then some "three"
  else if c = '4' then some "four"
  else if c = '5' then some "five"
  else if c = '6' then some "six"
  else if c = '7' then some "seven"
  else if c = '8' then some "eight"
  else if c = '9' then some "nine"
  else none

/-- The digit loop of `str_digits_to_words`: spell every character, or
fail on the first non-digit. -/
def digitsToWords : List Char → Option (List String)
  | [] => some []
  | c :: cs =>
    match digitWord c, digitsToWords cs with
    | some w, some ws => some (w :: ws)
    | _, _ => none

/-- `str_digits_to_words` (src/lib.rs:485-503). -/
def str_digits_to_words (digits : String) : Except DigitConversionError String :=
  match digitsToWords digits.toList with
  | some ws => .ok (joinWords ws)
  | none => .error .InvalidCharacter

/-- `StrConversionError` (src/lib.rs:508-513). -/
inductive StrConversionError where
  | InvalidString
  | TooLarge
deriving DecidableEq

/-- The validity-check loop of `str_to_words` (src/lib.rs:594-610):
`i` is the running position and `seenDot` the `decimal_point_flag`.
Rejects a second '.', any character outside `{'-', '.', '0'-'9'}`,
and a '-' at a position other than 0. -/
def validChars : List Char → Nat → Bool → Bool
  | [], _, _ => true
  | c :: rest, i, seenDot =>
    if c = '.' then
      if seenDot then false else validChars rest (i + 1) true
    else if '0' ≤ c ∧ c ≤ '9' then
      validChars rest (i + 1) seenDot
    else if i = 0 ∧ c = '-' then
      validChars rest (i + 1) seenDot
    else false

/-- The `at_least_one_digit_flag` of the validity-check loop
(src/lib.rs:595,604-605,611-613). -/
def hasDigit (cs : List Char) : Bool :=
  cs.any (fun c => decide ('0' ≤ c ∧ c ≤ '9'))

def validate (cs : List Char) : Bool :=
  validChars cs 0 false && hasDigit cs

/-- Embedding of `string.bytes().nth(0).unwrap() == b'-'` and the slice
`&string[1..]` (src/lib.rs:619-622): strip a recorded leading '-'. -/
def stripNeg (cs : List Char) : Bool × List Char :=
  match cs with
  | [] => (false, [])
  | c :: rest => if c = '-' then (true, rest) else (false, c :: rest)

/-- The reachable cases of `std::num::IntErrorKind` for a `u128` parse of
an all-digit slice (src/lib.rs:629-639): an empty slice or positive
overflow; the remaining kinds are `unreachable!()` in the source. -/
inductive ParseIntErr where
  | empty
  | posOverflow
deriving DecidableEq

/-- Value of an all-digit slice, as accumulated by `str::parse::<u128>`. -/
def digitsVal (cs : List Char) : Nat :=
  cs.foldl (fun acc c => 10 * acc + (c.toNat - 48)) 0

/-- `string[..].parse::<u128>()` on a slice of digits (src/lib.rs:626):
errors `Empty` on an empty slice and `PosOverflow` past `u128::MAX`. -/
def parseDigits (cs : List Char) : Except ParseIntErr Nat :=
  if cs = [] then .error .empty
  else if digitsVal cs < 2 ^ 128 then .ok (digitsVal cs)
  else .error .posOverflow

/-- The integer-part slice `&string[..floating_point_index]`
(src/lib.rs:624-626) of the sign-stripped string: everything before the
first '.' (the whole string when there is no '.'). -/
def intPartChars (cs : List Char) : List Char :=
  ((stripNeg cs).2).takeWhile (fun c => c ≠ '.')

/-- The fractional-part slice `&string[floating_point_index + 1..]`
(src/lib.rs:649) of the sign-stripped string. -/
def fracChars (body : List Char) : List Char :=
  (body.dropWhile (fun c => c ≠ '.')).tail

/-- The "point" block of `str_to_words` (src/lib.rs:646-652): when a '.'
is present, push "point", and — when the '.' is not the last character —
also the `str_digits_to_words(..).unwrap()` of the fractional slice
(the `unwrap` of the unreachable error case is mapped to ""). -/
def dotTokens (body : List Char) : List String :=
  if body.contains '.' then
    if fracChars body ≠ [] then
      ["point", (str_digits_to_words (String.mk (fracChars body))).toOption.getD ""]
    else ["point"]
  else []

/-- `str_to_words` (src/lib.rs:586-655). -/
def str_to_words (s : String) : Except StrConversionError String :=
  let cs := s.toList
  if cs = [] then .ok ""
  else if validate cs then
    let neg := (stripNeg cs).1
    let body := (stripNeg cs).2
    match parseDigits (intPartChars cs) with
    | .error .posOverflow => .error .TooLarge
    | .error .empty =>
      .ok (joinWords ((if neg then ["negative"] else []) ++ dotTokens body))
    | .ok v =>
      .ok (joinWords ((if neg then ["negative"] else []) ++ [u128_to_words v] ++ dotTokens body))
  else .error .InvalidString

/-! ### Spec-side definitions used in the claim statements -/

/-- The decomposition as section 4.3 of the spec words it: starting from
the highest period index `p` down to the units group, extract each
three-digit group by division and modulo by successive powers of 1000;
render a non-zero group followed by its period name, emit nothing for an
all-zero group, and always render the units group (`k = 0`). -/
def specScan (p n : Nat) : List String :=
  (List.range (p + 1)).reverse.flatMap (fun k =>
    if k = 0 then lt1000 (n / 1000 ^ k % 1000)
    else if n / 1000 ^ k % 1000 ≠ 0 then
      lt1000 (n / 1000 ^ k % 1000) ++ [periodName (k - 1)]
    else [])

/-- A character the validation pass of `str_to_words` accepts somewhere
in the string: '.', an ASCII digit, or '-'. -/
def allowedChar (c : Char) : Prop :=
  c = '.' ∨ ('0' ≤ c ∧ c ≤ '9') ∨ c = '-'

instance (c : Char) : Decidable (allowedChar c) := by
  unfold allowedChar
  infer_instance

/-- The reject conditions of the validation pass, as the spec states
them: more than one '.', a character outside `{'-', '.', '0'-'9'}`, a
'-' at a position other than 0, or no digit at all. -/
def specInvalid (cs : List Char) : Prop :=
  1 < cs.count '.' ∨ (∃ c ∈ cs, ¬ allowedChar c) ∨ '-' ∈ cs.tail ∨
    (∀ c ∈ cs, ¬ ('0' ≤ c ∧ c ≤ '9'))

instance (cs : List Char) : Decidable (specInvalid cs) := by
  unfold specInvalid
  infer_instance

/-- The ten ASCII digit characters. -/
def asciiDigits : List Char :=
  ['0', '1', '2', '3', '4', '5', '6', '7', '8', '9']

/-- The output shape of `str_to_words` as the spec describes it: an
optional "negative" for a recorded leading '-', the cardinal words of a
non-empty integer part, and — when a '.' is present — "point" followed
by the individually spelled fractional digits (nothing after "point"
when the '.' is last). -/
def specTokens (cs : List Char) : List String :=
  (if cs.head? = some '-' then ["negative"] else []) ++
  (if intPartChars cs ≠ [] then [u128_to_words (digitsVal (intPartChars cs))] else []) ++
  (if ((stripNeg cs).2).contains '.' then
    "point" :: (fracChars (stripNeg cs).2).map (fun c => (digitWord c).getD "")
  else [])

/-! ### Basic lemmas about the lexical layer -/

theorem joinWords_cons (w : String) (ws : List String) (h : ws ≠ []) :
    joinWords (w :: ws) = w ++ " " ++ joinWords ws := by
  cases ws with
  | nil => exact absurd rfl h
  | cons a as => rfl

theorem lt100_ne_nil (n : Nat) : lt100 n ≠ [] := by
  unfold lt100
  split
  · simp
  · dsimp only
    split <;> simp

theorem lt1000_ne_nil (n : Nat) (h : n ≠ 0) : lt1000 n ≠ [] := by
  have hdm := Nat.div_add_mod n 100
  by_cases h1 : n / 100 = 0
  · have h2 : n % 100 ≠ 0 := by omega
    simp [lt1000, h1, h2, lt100_ne_nil]
  · simp only [lt1000, ne_eq, h1, not_false_eq_true, if_true, List.append_assoc,
      List.append_eq_nil]
    intro hc
    exact lt100_ne_nil _ hc.1

theorem tokens_ne_nil (p n : Nat) (h0 : n ≠ 0) (hlt : n < 1000 ^ (p + 1)) :
    periodGroups n p ++ lt1000 (n % 1000) ≠ [] := by
  induction p with
  | zero =>
    have hn : n % 1000 = n := Nat.mod_eq_of_lt (by simpa using hlt)
    simpa [periodGroups, hn] using lt1000_ne_nil n h0
  | succ p ih =>
    by_cases hn : n < 1000 ^ (p + 1)
    · have := ih hn
      rw [periodGroups, List.append_assoc]
      simp only [ne_eq, List.append_eq_nil] at this ⊢
      tauto
    · have hdiv : n / 1000 ^ (p + 1) < 1000 := by
        apply Nat.div_lt_of_lt_mul
        calc n < 1000 ^ (p + 1 + 1) := hlt
        _ = 1000 ^ (p + 1) * 1000 := by ring
      have hg : n / 1000 ^ (p + 1) % 1000 ≠ 0 := by
        rw [Nat.mod_eq_of_lt hdiv]
        intro hz
        exact hn ((Nat.div_eq_zero_iff (by positivity)).mp hz)
      rw [periodGroups]
      simp [hg]

theorem periodGroups_stable (n : Nat) {p q : Nat} (hpq : p ≤ q) (h : n < 1000 ^ (p + 1)) :
    periodGroups n q = periodGroups n p := by
  induction q with
  | zero =>
    have : p = 0 := Nat.le_zero.mp hpq
    rw [this]
  | succ q ih =>
    rcases Nat.eq_or_lt_of_le hpq with rfl | hlt
    · rfl
    · have hpq' : p ≤ q := Nat.lt_succ_iff.mp hlt
      have hg : n / 1000 ^ (q + 1) = 0 := by
        apply Nat.div_eq_of_lt
        exact lt_of_lt_of_le h (Nat.pow_le_pow_right (by norm_num) (by omega))
      rw [periodGroups, hg]
      simp [ih hpq']

theorem to_words_unsigned_stable {p q : Nat} (n : Nat) (hpq : p ≤ q) (h : n < 1000 ^ (p + 1)) :
    to_words_unsigned q n = to_words_unsigned p n := by
  unfold to_words_unsigned
  rw [periodGroups_stable n hpq h]

theorem specScan_eq (p n : Nat) :
    specScan p n = periodGroups n p ++ lt1000 (n % 1000) := by
  induction p with
  | zero =>
    have h1 : List.range 1 = [0] := rfl
    simp [specScan, periodGroups, h1]
  | succ p ih =>
    have hrev : (List.range (p + 1 + 1)).reverse = (p + 1) :: (List.range (p + 1)).reverse := by
      rw [List.range_succ, List.reverse_append]
      rfl
    rw [specScan, hrev, List.flatMap_cons]
    have htail : (List.range (p + 1)).reverse.flatMap (fun k =>
        if k = 0 then lt1000 (n / 1000 ^ k % 1000)
        else if n / 1000 ^ k % 1000 ≠ 0 then
          lt1000 (n / 1000 ^ k % 1000) ++ [periodName (k - 1)]
        else []) = specScan p n := rfl
    rw [htail, ih, periodGroups]
    simp [List.append_assoc]

/-! ### Characterizing the validation pass of str_to_words -/

theorem digit_ne_dot {c : Char} (h : '0' ≤ c ∧ c ≤ '9') : c ≠ '.' := by
  rintro rfl
  exact absurd h.1 (by decide)

theorem digit_ne_dash {c : Char} (h : '0' ≤ c ∧ c ≤ '9') : c ≠ '-' := by
  rintro rfl
  exact absurd h.1 (by decide)

theorem validChars_pos_true_iff (cs : List Char) : ∀ i : Nat,
    validChars cs (i + 1) true = true ↔
      ('.' ∉ cs ∧ (∀ c ∈ cs, allowedChar c) ∧ '-' ∉ cs) := by
  induction cs with
  | nil => intro i; simp [validChars]
  | cons c rest ih =>
    intro i
    rw [validChars]
    by_cases h1 : c = '.'
    · subst h1
      simp
    · rw [if_neg h1]
      by_cases h3 : '0' ≤ c ∧ c ≤ '9'
      · rw [if_pos h3, ih]
        simp only [List.mem_cons, not_or]
        constructor
        · rintro ⟨ha, hb, hc⟩
          refine ⟨⟨fun h => h1 h.symm, ha⟩, ?_, fun h => digit_ne_dash h3 h.symm, hc⟩
          rintro x (rfl | hx)
          · exact Or.inr (Or.inl h3)
          · exact hb x hx
        · rintro ⟨⟨-, ha⟩, hb, -, hc⟩
          exact ⟨ha, fun x hx => hb x (Or.inr hx), hc⟩
      · rw [if_neg h3, if_neg (by simp : ¬ (i + 1 = 0 ∧ c = '-'))]
        simp only [Bool.false_eq_true, false_iff, not_and]
        intro ha hb
        rcases hb c (List.mem_cons_self c rest) with h | h | h
        · exact absurd h h1
        · exact absurd h h3
        · subst h
          exact fun hc => hc (List.mem_cons_self _ _)

theorem validChars_pos_false_iff (cs : List Char) : ∀ i : Nat,
    validChars cs (i + 1) false = true ↔
      (cs.count '.' ≤ 1 ∧ (∀ c ∈ cs, allowedChar c) ∧ '-' ∉ cs) := by
  induction cs with
  | nil => intro i; simp [validChars]
  | cons c rest ih =>
    intro i
    rw [validChars]
    by_cases h1 : c = '.'
    · subst h1
      rw [if_pos rfl]
      simp only [Bool.false_eq_true, if_false]
      rw [validChars_pos_true_iff rest (i + 1)]
      simp only [List.count_cons_self, List.mem_cons, not_or,
        ← List.count_eq_zero (a := '.')]
      constructor
      · rintro ⟨ha, hb, hc⟩
        refine ⟨by omega, ?_, by simp, hc⟩
        rintro x (rfl | hx)
        · exact Or.inl rfl
        · exact hb x hx
      · rintro ⟨ha, hb, -, hc⟩
        exact ⟨by omega, fun x hx => hb x (Or.inr hx), hc⟩
    · rw [if_neg h1]
      by_cases h3 : '0' ≤ c ∧ c ≤ '9'
      · rw [if_pos h3, ih]
        rw [List.count_cons_of_ne (fun h => h1 h.symm)]
        simp only [List.mem_cons, not_or]
        constructor
        · rintro ⟨ha, hb, hc⟩
          refine ⟨ha, ?_, fun h => digit_ne_dash h3 h.symm, hc⟩
          rintro x (rfl | hx)
          · exact Or.inr (Or.inl h3)
          · exact hb x hx
        · rintro ⟨ha, hb, -, hc⟩
          exact ⟨ha, fun x hx => hb x (Or.inr hx), hc⟩
      · rw [if_neg h3, if_neg (by simp : ¬ (i + 1 = 0 ∧ c = '-'))]
        simp only [Bool.false_eq_true, false_iff, not_and]
        intro ha hb
        rcases hb c (List.mem_cons_self c rest) with h | h | h
        · exact absurd h h1
        · exact absurd h h3
        · subst h
          exact fun hc => hc (List.mem_cons_self _ _)

theorem validChars_zero_iff (cs : List Char) :
    validChars cs 0 false = true ↔
      (cs.count '.' ≤ 1 ∧ (∀ c ∈ cs, allowedChar c) ∧ '-' ∉ cs.tail) := by
  cases cs with
  | nil => simp [validChars]
  | cons c rest =>
    rw [validChars]
    by_cases h1 : c = '.'
    · subst h1
      rw [if_pos rfl]
      simp only [Bool.false_eq_true, if_false]
      rw [validChars_pos_true_iff rest 0]
      simp only [List.count_cons_self, List.mem_cons, List.tail_cons,
        ← List.count_eq_zero (a := '.')]
      constructor
      · rintro ⟨ha, hb, hc⟩
        refine ⟨by omega, ?_, hc⟩
        rintro x (rfl | hx)
        · exact Or.inl rfl
        · exact hb x hx
      · rintro ⟨ha, hb, hc⟩
        exact ⟨by omega, fun x hx => hb x (Or.inr hx), hc⟩
    · rw [if_neg h1]
      by_cases h3 : '0' ≤ c ∧ c ≤ '9'
      · rw [if_pos h3, validChars_pos_false_iff rest 0]
        rw [List.count_cons_of_ne (fun h => h1 h.symm)]
        simp only [List.mem_cons, List.tail_cons]
        constructor
        · rintro ⟨ha, hb, hc⟩
          refine ⟨ha, ?_, hc⟩
          rintro x (rfl | hx)
          · exact Or.inr (Or.inl h3)
          · exact hb x hx
        · rintro ⟨ha, hb, hc⟩
          exact ⟨ha, fun x hx => hb x (Or.inr hx), hc⟩
      · rw [if_neg h3]
        by_cases h4 : c = '-'
        · rw [if_pos ⟨rfl, h4⟩, validChars_pos_false_iff rest 0]
          subst h4
          rw [List.count_cons_of_ne (by decide)]
          simp only [List.mem_cons, List.tail_cons]
          constructor
          · rintro ⟨ha, hb, hc⟩
            refine ⟨ha, ?_, hc⟩
            rintro x (rfl | hx)
            · exact Or.inr (Or.inr rfl)
            · exact hb x hx
          · rintro ⟨ha, hb, hc⟩
            exact ⟨ha, fun x hx => hb x (Or.inr hx), hc⟩
        · rw [if_neg (by simp [h4])]
          simp only [Bool.false_eq_true, false_iff, not_and]
          intro ha hb
          rcases hb c (List.mem_cons_self c rest) with h | h | h
          · exact absurd h h1
          · exact absurd h h3
          · exact absurd h h4

theorem hasDigit_iff (cs : List Char) :
    hasDigit cs = true ↔ ∃ c ∈ cs, ('0' ≤ c ∧ c ≤ '9') := by
  simp [hasDigit]

theorem validate_true_iff (cs : List Char) :
    validate cs = true ↔
      (cs.count '.' ≤ 1 ∧ (∀ c ∈ cs, allowedChar c) ∧ '-' ∉ cs.tail ∧
        ∃ c ∈ cs, ('0' ≤ c ∧ c ≤ '9')) := by
  rw [validate, Bool.and_eq_true, validChars_zero_iff, hasDigit_iff]
  tauto

theorem validate_true_iff_not_specInvalid (cs : List Char) :
    validate cs = true ↔ ¬ specInvalid cs := by
  rw [validate_true_iff]
  unfold specInvalid
  push_neg
  tauto

/-! ### The slices of a validated string -/

theorem stripNeg_snd_sublist (cs : List Char) : (stripNeg cs).2.Sublist cs := by
  cases cs with
  | nil => simp [stripNeg]
  | cons c rest =>
    by_cases h : c = '-'
    · simp [stripNeg, h]
    · simp [stripNeg, h]

theorem dash_not_mem_stripNeg_snd (cs : List Char) (hdash : '-' ∉ cs.tail) :
    '-' ∉ (stripNeg cs).2 := by
  cases cs with
  | nil => simp [stripNeg]
  | cons c rest =>
    by_cases h : c = '-'
    · simpa [stripNeg, h] using hdash
    · simp only [stripNeg, h, if_false, List.mem_cons, not_or]
      exact ⟨fun hh => h hh.symm, by simpa using hdash⟩

theorem intPart_all_digits (cs : List Char) (hval : validate cs = true) :
    ∀ c ∈ intPartChars cs, ('0' ≤ c ∧ c ≤ '9') := by
  obtain ⟨hcount, hallowed, hdash, -⟩ := (validate_true_iff cs).mp hval
  intro c hc
  have hcne : c ≠ '.' := by simpa using List.mem_takeWhile_imp hc
  have hsub : (intPartChars cs).Sublist cs :=
    (List.takeWhile_sublist _).trans (stripNeg_snd_sublist cs)
  have hall := hallowed c (hsub.subset hc)
  have hnd : '-' ∉ (stripNeg cs).2 := dash_not_mem_stripNeg_snd cs hdash
  have hcnd : c ≠ '-' := fun h =>
    hnd (h ▸ (List.takeWhile_sublist _).subset hc)
  rcases hall with h | h | h
  · exact absurd h hcne
  · exact h
  · exact absurd h hcnd

theorem frac_all_digits (cs : List Char) (hval : validate cs = true) :
    ∀ c ∈ fracChars (stripNeg cs).2, ('0' ≤ c ∧ c ≤ '9') := by
  obtain ⟨hcount, hallowed, hdash, -⟩ := (validate_true_iff cs).mp hval
  intro c hc
  have hsubfrac : (fracChars (stripNeg cs).2).Sublist (stripNeg cs).2 := by
    unfold fracChars
    exact (List.tail_sublist _).trans (List.dropWhile_sublist _)
  have hsub : (fracChars (stripNeg cs).2).Sublist cs :=
    hsubfrac.trans (stripNeg_snd_sublist cs)
  have hall := hallowed c (hsub.subset hc)
  have hnd : '-' ∉ (stripNeg cs).2 := dash_not_mem_stripNeg_snd cs hdash
  have hcnd : c ≠ '-' := fun h => hnd (h ▸ hsubfrac.subset hc)
  have hcne : c ≠ '.' := by
    intro h
    subst h
    have hne : (stripNeg cs).2.dropWhile (fun x => x ≠ '.') ≠ [] := by
      intro hmt
      have h2 := hc
      unfold fracChars at h2
      rw [hmt] at h2
      simp at h2
    have hhead : ((stripNeg cs).2.dropWhile (fun x => x ≠ '.')).head hne = '.' := by
      have := List.head_dropWhile_not (fun x => decide (x ≠ '.')) (stripNeg cs).2 hne
      simpa using this
    have hdw : (stripNeg cs).2.dropWhile (fun x => x ≠ '.') =
        '.' :: fracChars (stripNeg cs).2 := by
      unfold fracChars
      conv_lhs => rw [← List.head_cons_tail _ hne]
      rw [hhead]
    have hcnt2 : 2 ≤ (stripNeg cs).2.count '.' := by
      have hle := (List.dropWhile_sublist
        (l := (stripNeg cs).2) (fun x => decide (x ≠ '.'))).count_le '.'
      rw [hdw] at hle
      simp only [List.count_cons_self] at hle
      have hfc : 0 < (fracChars (stripNeg cs).2).count '.' := List.count_pos_iff.mpr hc
      omega
    have hle2 : (stripNeg cs).2.count '.' ≤ cs.count '.' :=
      (stripNeg_snd_sublist cs).count_le '.'
    omega
  rcases hall with h | h | h
  · exact absurd h hcne
  · exact h
  · exact absurd h hcnd

theorem parseDigits_eq_empty_iff (cs : List Char) :
    parseDigits cs = .error .empty ↔ cs = [] := by
  unfold parseDigits
  split_ifs <;> simp_all

theorem parseDigits_eq_overflow_iff (cs : List Char) :
    parseDigits cs = .error .posOverflow ↔ (cs ≠ [] ∧ 2 ^ 128 ≤ digitsVal cs) := by
  unfold parseDigits
  split_ifs <;> simp_all

theorem parseDigits_eq_ok_iff (cs : List Char) (v : Nat) :
    parseDigits cs = .ok v ↔ (cs ≠ [] ∧ digitsVal cs < 2 ^ 128 ∧ v = digitsVal cs) := by
  unfold parseDigits
  split_ifs <;> simp_all
  omega

/-! ### Claim theorems C1, C2, C10 -/

/-! ### Claim theorems C1, C2, C10 -/

/-- C1: for every signed width (8, 16, 32, 64, 128 and the 64-bit native
width), converting the most-negative value `MIN_W` yields exactly
"negative " followed by the cardinal words of the magnitude of `MIN_W`
taken as the unsigned counterpart type, with no wraparound; in
particular `i8_to_words (-128) = "negative one hundred twenty-eight"`. -/
theorem spec_c1_most_negative :
    i8_to_words (-128) = "negative one hundred twenty-eight" ∧
    i8_to_words (-128) = "negative " ++ u8_to_words 128 ∧
    i16_to_words (-(2 ^ 15)) = "negative " ++ u16_to_words (2 ^ 15) ∧
    i32_to_words (-(2 ^ 31)) = "negative " ++ u32_to_words (2 ^ 31) ∧
    i64_to_words (-(2 ^ 63)) = "negative " ++ u64_to_words (2 ^ 63) ∧
    isize_to_words (-(2 ^ 63)) = "negative " ++ usize_to_words (2 ^ 63) ∧
    i128_to_words (-(2 ^ 127)) = "negative " ++ u128_to_words (2 ^ 127) :=
  ⟨rfl, rfl, rfl, rfl, rfl, rfl, rfl⟩

/-- C2: for every width, 0 converts to exactly "zero", and a non-zero
value is rendered by scanning the three-digit period groups from the
highest period index for the width down to the units group (division
and modulo by successive powers of 1000), rendering each non-zero group
followed by its period name and emitting nothing for an all-zero
group — e.g. `u32_to_words 1000000 = "one million"` with no spurious
"zero thousand". -/
theorem spec_c2_unsigned_scan :
    (∀ p n, to_words_unsigned p n =
      if n = 0 then "zero" else joinWords (specScan p n)) ∧
    (∀ n, n < 2 ^ 8 → u8_to_words n =
      if n = 0 then "zero" else joinWords (specScan 0 n)) ∧
    u32_to_words 1000000 = "one million" ∧
    u8_to_words 0 = "zero" ∧ u16_to_words 0 = "zero" ∧ u32_to_words 0 = "zero" ∧
    u64_to_words 0 = "zero" ∧ usize_to_words 0 = "zero" ∧ u128_to_words 0 = "zero" := by
  refine ⟨?_, ?_, by decide, rfl, rfl, rfl, rfl, rfl, rfl⟩
  · intro p n
    rw [specScan_eq]
    rfl
  · intro n hn
    rw [specScan_eq]
    by_cases h0 : n = 0
    · simp [u8_to_words, h0]
    · have hmod : n % 1000 = n := Nat.mod_eq_of_lt (by omega)
      simp [u8_to_words, h0, periodGroups, hmod]

theorem spec_c2_unsigned_scan_witness :
    (7 : Nat) < 2 ^ 8 ∧
      u8_to_words 7 = if (7 : Nat) = 0 then "zero" else joinWords (specScan 0 7) :=
  ⟨by decide, spec_c2_unsigned_scan.2.1 7 (by decide)⟩

/-- C10: a value representable in a narrower width converts identically
at every wider supported width, for cardinals and for the `u8` ordinal
delegation; the native 64-bit width agrees with `u64`. -/
theorem spec_c10_width_coherence :
    (∀ n, n < 2 ^ 8 → u8_to_words n = u16_to_words n ∧
      u16_to_words n = u128_to_words n ∧ u8_to_ord_words n = u16_to_ord_words n) ∧
    (∀ n, n < 2 ^ 16 → u16_to_words n = u32_to_words n) ∧
    (∀ n, n < 2 ^ 32 → u32_to_words n = u64_to_words n) ∧
    (∀ n, n < 2 ^ 64 → u64_to_words n = u128_to_words n) ∧
    (∀ n, usize_to_words n = u64_to_words n) := by
  refine ⟨?_, ?_, ?_, ?_, fun n => rfl⟩
  · intro n hn
    refine ⟨?_, ?_, rfl⟩
    · by_cases h0 : n = 0
      · simp [u8_to_words, u16_to_words, to_words_unsigned, h0]
      · have hdiv : n / 1000 = 0 := Nat.div_eq_of_lt (by omega)
        have hmod : n % 1000 = n := Nat.mod_eq_of_lt (by omega)
        simp [u8_to_words, u16_to_words, to_words_unsigned, h0, periodGroups, hdiv, hmod]
    · exact (to_words_unsigned_stable n (by norm_num) (lt_of_lt_of_le hn (by norm_num))).symm
  · intro n hn
    exact (to_words_unsigned_stable n (by norm_num) (lt_of_lt_of_le hn (by norm_num))).symm
  · intro n hn
    exact (to_words_unsigned_stable n (by norm_num) (lt_of_lt_of_le hn (by norm_num))).symm
  · intro n hn
    exact (to_words_unsigned_stable n (by norm_num) (lt_of_lt_of_le hn (by norm_num))).symm

theorem spec_c10_width_coherence_witness :
    (9 : Nat) < 2 ^ 8 ∧ u8_to_words 9 = u16_to_words 9 :=
  ⟨by decide, (spec_c10_width_coherence.1 9 (by decide)).1⟩

/-! ### Claim theorems C3 and C8 -/

/-- C3: for a non-zero in-range `n` the ordinal conversion is the
cardinal conversion of `n` with only the final token rewritten by
`ordinalizeLast` (hyphen split keeping the tens-prefix, the irregular
table one→first, two→second, three→third, five→fifth, eight→eighth,
nine→ninth, twelve→twelfth, trailing "y" → "ieth", otherwise "th"),
all preceding tokens unchanged; the ordinal of 0 is "zeroth". -/
theorem spec_c3_ordinal :
    (∀ p n, n ≠ 0 → n < 1000 ^ (p + 1) →
      ∃ toks tok, to_words_unsigned p n = joinWords (toks ++ [tok]) ∧
        to_ord_words_unsigned p n = joinWords (toks ++ [ordinalizeLast tok])) ∧
    (∀ p, to_ord_words_unsigned p 0 = "zeroth") ∧
    u8_to_ord_words 0 = "zeroth" ∧
    u16_to_ord_words 1 = "first" ∧ u16_to_ord_words 2 = "second" ∧
    u16_to_ord_words 3 = "third" ∧ u16_to_ord_words 5 = "fifth" ∧
    u16_to_ord_words 8 = "eighth" ∧ u16_to_ord_words 9 = "ninth" ∧
    u16_to_ord_words 12 = "twelfth" ∧ u16_to_ord_words 20 = "twentieth" ∧
    u16_to_ord_words 21 = "twenty-first" ∧ u16_to_ord_words 100 = "one hundredth" := by
  refine ⟨?_, fun p => rfl, rfl, by decide, by decide, by decide, by decide, by decide,
    by decide, by decide, by decide, by decide, by decide⟩
  intro p n h0 hlt
  have hL := tokens_ne_nil p n h0 hlt
  refine ⟨(periodGroups n p ++ lt1000 (n % 1000)).dropLast,
    (periodGroups n p ++ lt1000 (n % 1000)).getLast hL, ?_, ?_⟩
  · unfold to_words_unsigned
    rw [if_neg h0, List.dropLast_append_getLast hL]
  · unfold to_ord_words_unsigned
    rw [if_neg h0]
    simp only [List.getLast?_eq_getLast_of_ne_nil hL]

theorem spec_c3_ordinal_witness :
    ∃ toks tok, to_words_unsigned 1 21 = joinWords (toks ++ [tok]) ∧
      to_ord_words_unsigned 1 21 = joinWords (toks ++ [ordinalizeLast tok]) :=
  spec_c3_ordinal.1 1 21 (by decide) (by decide)

/-- C8: for every signed width and every representable `n > MIN` with
`n > 0`, converting `-n` yields exactly "negative " followed by the
conversion of `n`. -/
theorem spec_c8_sign_symmetry :
    (∀ bits p : Nat, ∀ n : Int, 0 < n → n < 2 ^ (bits - 1) →
      ((2 : Int) ^ (bits - 1) ≤ 1000 ^ (p + 1)) →
      to_words_signed bits p (-n) = "negative " ++ to_words_signed bits p n) ∧
    (∀ n : Int, 0 < n → n < 128 →
      i8_to_words (-n) = "negative " ++ i8_to_words n) := by
  constructor
  · intro bits p n hn hlt hbound
    have hn0 : n ≠ 0 := hn.ne'
    have hneg0 : -n ≠ 0 := by simpa using hn0
    have hnneg : -n < 0 := by omega
    have hmin : -(2 ^ (bits - 1) : Int) < -n := by omega
    have hnn : ¬ n < 0 := by omega
    have hmod : n % (2 ^ bits : Int) = n := by
      apply Int.emod_eq_of_lt hn.le
      calc n < 2 ^ (bits - 1) := hlt
        _ ≤ (2 : Int) ^ bits := pow_le_pow_right₀ (by norm_num) (Nat.sub_le bits 1)
    have hTn : (n.toNat : Int) = n := Int.toNat_of_nonneg hn.le
    have hcast : ((1000 ^ (p + 1) : Nat) : Int) = (1000 : Int) ^ (p + 1) := by push_cast; ring
    have htlt : n.toNat < 1000 ^ (p + 1) := by
      have h1 : n < ((1000 ^ (p + 1) : Nat) : Int) := by
        rw [hcast]; exact lt_of_lt_of_le hlt hbound
      omega
    have ht0 : n.toNat ≠ 0 := by omega
    have hT := tokens_ne_nil p n.toNat ht0 htlt
    unfold to_words_signed
    rw [if_neg hneg0, if_neg hn0]
    simp only [if_pos hnneg, if_pos hmin, if_neg hnn, neg_neg, hmod]
    simp only [List.singleton_append, List.cons_append, List.nil_append]
    rw [joinWords_cons _ _ hT]
    rfl
  · intro n hn hlt
    have hn0 : n ≠ 0 := hn.ne'
    have hneg0 : -n ≠ 0 := by simpa using hn0
    have hnneg : -n < 0 := by omega
    have hmin : -(128 : Int) < -n := by omega
    have hnn : ¬ n < 0 := by omega
    have hmod : n % (256 : Int) = n := Int.emod_eq_of_lt hn.le (by omega)
    have ht0 : n.toNat ≠ 0 := by omega
    have hT := lt1000_ne_nil n.toNat ht0
    unfold i8_to_words
    rw [if_neg hneg0, if_neg hn0]
    simp only [if_pos hnneg, if_pos hmin, if_neg hnn, neg_neg, hmod]
    simp only [List.singleton_append, List.cons_append, List.nil_append]
    rw [joinWords_cons _ _ hT]
    rfl

theorem spec_c8_sign_symmetry_witness :
    to_words_signed 16 1 (-5) = "negative " ++ to_words_signed 16 1 5 :=
  spec_c8_sign_symmetry.1 16 1 5 (by decide) (by decide) (by norm_num)

/-! ### Claim theorems C4 and C5 -/

/-- C4: `str_to_words` fails with `InvalidString` exactly on a non-empty
string with more than one '.', a character outside `{'-', '.', '0'-'9'}`,
a '-' at a position other than 0, or no digit at all; the empty string
succeeds with an empty output. -/
theorem spec_c4_invalid_iff :
    (∀ s : String, str_to_words s = .error .InvalidString ↔
      (s.toList ≠ [] ∧ specInvalid s.toList)) ∧
    str_to_words "" = .ok "" := by
  refine ⟨?_, rfl⟩
  intro s
  simp only [String.toList] at *
  by_cases hnil : s.data = []
  · simp [str_to_words, hnil]
  · by_cases hval : validate s.data = true
    · have hnsi : ¬ specInvalid s.data := (validate_true_iff_not_specInvalid _).mp hval
      rcases hpd : parseDigits (intPartChars s.data) with e | v
      · cases e
        · simp [str_to_words, hnil, hval, hpd, hnsi]
        · simp [str_to_words, hnil, hval, hpd, hnsi]
      · simp [str_to_words, hnil, hval, hpd, hnsi]
    · have hsi : specInvalid s.data := by
        by_contra h
        exact hval ((validate_true_iff_not_specInvalid _).mpr h)
      simp [str_to_words, hnil, hval, hsi]

theorem spec_c4_invalid_iff_witness :
    str_to_words "235:53" = .error .InvalidString :=
  (spec_c4_invalid_iff.1 "235:53").mpr ⟨by decide, by decide⟩

/-- C5: `str_to_words` fails with `TooLarge` exactly when the string
passes validation but its integer-part digits denote a value above
`u128::MAX = 2^128 - 1`; the maximal 128-bit value succeeds while its
successor fails; and after validation the integer-part slice consists
of digits only, so the `InvalidDigit` parse failure marked
`unreachable!()` in the source can indeed not occur. -/
theorem spec_c5_too_large :
    (∀ s : String, str_to_words s = .error .TooLarge ↔
      (s.toList ≠ [] ∧ ¬ specInvalid s.toList ∧
        2 ^ 128 ≤ digitsVal (intPartChars s.toList))) ∧
    (str_to_words "340282366920938463463374607431768211455").isOk = true ∧
    str_to_words "340282366920938463463374607431768211456" = .error .TooLarge ∧
    (∀ s : String, validate s.toList = true →
      ∀ c ∈ intPartChars s.toList, ('0' ≤ c ∧ c ≤ '9')) := by
  refine ⟨?_, rfl, rfl, fun s hval => intPart_all_digits s.toList hval⟩
  intro s
  simp only [String.toList] at *
  by_cases hnil : s.data = []
  · have hdv : digitsVal (intPartChars s.data) = 0 := by
      rw [hnil]; rfl
    simp [str_to_words, hnil, hdv]
  · by_cases hval : validate s.data = true
    · have hnsi : ¬ specInvalid s.data := (validate_true_iff_not_specInvalid _).mp hval
      rcases hpd : parseDigits (intPartChars s.data) with e | v
      · cases e
        · have hint : intPartChars s.data = [] := (parseDigits_eq_empty_iff _).mp hpd
          have hdv : digitsVal (intPartChars s.data) = 0 := by
            rw [hint]; rfl
          simp [str_to_words, hnil, hval, hpd, hnsi, hdv]
        · obtain ⟨-, hov⟩ := (parseDigits_eq_overflow_iff _).mp hpd
          norm_num at hov
          simp [str_to_words, hnil, hval, hpd, hnsi, hov]
      · obtain ⟨hne, hlt, hveq⟩ := (parseDigits_eq_ok_iff _ _).mp hpd
        simp [str_to_words, hnil, hval, hpd, hnsi]
        omega
    · have hsi : specInvalid s.data := by
        by_contra h
        exact hval ((validate_true_iff_not_specInvalid _).mpr h)
      simp [str_to_words, hnil, hval, hsi]

theorem spec_c5_too_large_witness :
    str_to_words "340282366920938463463374607431768211456" = .error .TooLarge ∧
    (∀ c ∈ intPartChars ("12.5").toList, ('0' ≤ c ∧ c ≤ '9')) :=
  ⟨(spec_c5_too_large.1 "340282366920938463463374607431768211456").mpr
      ⟨by decide, by decide, by decide⟩,
    spec_c5_too_large.2.2.2 "12.5" (by decide)⟩

/-! ### The ASCII digit characters and the digit table -/

theorem mem_asciiDigits_of_range {c : Char} (h : '0' ≤ c ∧ c ≤ '9') :
    c ∈ asciiDigits := by
  obtain ⟨h1, h2⟩ := h
  have hge : 48 ≤ c.toNat := by
    have hv := Char.le_def.mp h1
    exact UInt32.le_toNat_of_le (by norm_num) hv
  have hle : c.toNat ≤ 57 := by
    have hv := Char.le_def.mp h2
    exact UInt32.toNat_le_of_le (by norm_num) hv
  have hofn := Char.ofNat_toNat c
  generalize hk : c.toNat = k at hge hle hofn
  interval_cases k <;> (rw [← hofn]; decide)

theorem range_of_mem_asciiDigits {c : Char} (h : c ∈ asciiDigits) :
    ('0' ≤ c ∧ c ≤ '9') := by
  fin_cases h <;> decide

theorem digitWord_eq_some_of_range {c : Char} (h : '0' ≤ c ∧ c ≤ '9') :
    digitWord c = some ((digitWord c).getD "") := by
  have hm := mem_asciiDigits_of_range h
  fin_cases hm <;> rfl

theorem range_of_digitWord_eq_some {c : Char} {w : String}
    (h : digitWord c = some w) : ('0' ≤ c ∧ c ≤ '9') := by
  unfold digitWord at h
  split_ifs at h with h0 h1 h2 h3 h4 h5 h6 h7 h8 h9 <;>
    (subst_vars; decide)

theorem digitsToWords_eq_map (cs : List Char)
    (h : ∀ c ∈ cs, ('0' ≤ c ∧ c ≤ '9')) :
    digitsToWords cs = some (cs.map (fun c => (digitWord c).getD "")) := by
  induction cs with
  | nil => rfl
  | cons c rest ih =>
    have hc := h c (List.mem_cons_self c rest)
    have htl := ih (fun x hx => h x (List.mem_cons_of_mem c hx))
    rw [digitsToWords, htl, digitWord_eq_some_of_range hc]
    rfl

theorem digitsToWords_eq_none (cs : List Char)
    (h : ¬ ∀ c ∈ cs, ('0' ≤ c ∧ c ≤ '9')) :
    digitsToWords cs = none := by
  induction cs with
  | nil => exact absurd (by simp) h
  | cons c rest ih =>
    rw [digitsToWords]
    by_cases hc : ('0' ≤ c ∧ c ≤ '9')
    · have htl : ¬ ∀ x ∈ rest, ('0' ≤ x ∧ x ≤ '9') := by
        intro hall
        apply h
        intro x hx
        rcases List.mem_cons.mp hx with rfl | hx'
        · exact hc
        · exact hall x hx'
      rw [ih htl]
      cases digitWord c <;> rfl
    · have hnone : digitWord c = none := by
        rcases hw : digitWord c with - | w
        · rfl
        · exact absurd (range_of_digitWord_eq_some hw) hc
      rw [hnone]

/-! ### Claim theorem C7 -/

/-- C7: `str_digits_to_words` succeeds exactly when every character is
an ASCII digit (the empty string succeeding with ""), and on success
the output is the space-join of the digit words in order; otherwise the
whole call fails with `InvalidCharacter`. -/
theorem spec_c7_digit_spelling :
    (∀ s : String, str_digits_to_words s =
      if ∀ c ∈ s.toList, ('0' ≤ c ∧ c ≤ '9') then
        .ok (joinWords (s.toList.map (fun c => (digitWord c).getD "")))
      else .error .InvalidCharacter) ∧
    str_digits_to_words "001247" = .ok "zero zero one two four seven" ∧
    str_digits_to_words "" = .ok "" ∧
    str_digits_to_words "12a" = .error .InvalidCharacter := by
  refine ⟨?_, rfl, rfl, rfl⟩
  intro s
  by_cases h : ∀ c ∈ s.toList, ('0' ≤ c ∧ c ≤ '9')
  · rw [if_pos h]
    unfold str_digits_to_words
    rw [digitsToWords_eq_map s.toList h]
  · rw [if_neg h]
    unfold str_digits_to_words
    rw [digitsToWords_eq_none s.toList h]

/-! ### Claim theorem C6 -/

theorem joinWords_append_single (xs ys : List String) (h : ys ≠ []) :
    joinWords (xs ++ [joinWords ys]) = joinWords (xs ++ ys) := by
  induction xs with
  | nil =>
    cases ys with
    | nil => exact absurd rfl h
    | cons a as => rfl
  | cons x xs ih =>
    have h1 : xs ++ [joinWords ys] ≠ [] := by simp
    have h2 : xs ++ ys ≠ [] := by simp [h]
    rw [List.cons_append, joinWords_cons x _ h1, ih, ← joinWords_cons x _ h2,
      List.cons_append]

theorem stripNeg_fst_iff (cs : List Char) :
    (stripNeg cs).1 = true ↔ cs.head? = some '-' := by
  cases cs with
  | nil => simp [stripNeg]
  | cons c rest =>
    by_cases h : c = '-' <;> simp [stripNeg, h]

theorem joinWords_dotTokens (A : List String) (body : List Char)
    (h : ∀ c ∈ fracChars body, ('0' ≤ c ∧ c ≤ '9')) :
    joinWords (A ++ dotTokens body) =
      joinWords (A ++ (if body.contains '.' then
        "point" :: (fracChars body).map (fun c => (digitWord c).getD "") else [])) := by
  by_cases hdot : body.contains '.' = true
  · unfold dotTokens
    rw [if_pos hdot, if_pos hdot]
    by_cases hfrac : fracChars body = []
    · rw [if_neg (not_not_intro hfrac), hfrac]
      rfl
    · rw [if_pos hfrac]
      have hW : (str_digits_to_words (String.mk (fracChars body))).toOption.getD "" =
          joinWords ((fracChars body).map (fun c => (digitWord c).getD "")) := by
        unfold str_digits_to_words
        have hmk : (String.mk (fracChars body)).toList = fracChars body := rfl
        rw [hmk, digitsToWords_eq_map _ h]
        rfl
      rw [hW]
      have hM : (fracChars body).map (fun c => (digitWord c).getD "") ≠ [] := by
        simpa using hfrac
      calc joinWords (A ++ ["point",
              joinWords ((fracChars body).map (fun c => (digitWord c).getD ""))])
          = joinWords ((A ++ ["point"]) ++
              [joinWords ((fracChars body).map (fun c => (digitWord c).getD ""))]) := by
            rw [List.append_cons]
        _ = joinWords ((A ++ ["point"]) ++
              (fracChars body).map (fun c => (digitWord c).getD "")) :=
            joinWords_append_single _ _ hM
        _ = joinWords (A ++ "point" ::
              (fracChars body).map (fun c => (digitWord c).getD "")) := by
            rw [← List.append_cons]
  · unfold dotTokens
    rw [if_neg hdot, if_neg hdot]

/-- C6: every successful output of `str_to_words` is the space-join of,
in order, "negative" when a leading '-' was present, the cardinal words
of the integer part when its slice is non-empty, and "point" followed by
the individually spelled fractional digits when a '.' is present
("point" alone when the '.' is last). -/
theorem spec_c6_output_tokens :
    ∀ (s : String) (out : String),
      str_to_words s = .ok out → out = joinWords (specTokens s.toList) := by
  intro s out hok
  simp only [String.toList] at *
  have hifeq : (if s.data.head? = some '-' then ["negative"] else []) =
      (if (stripNeg s.data).1 = true then ["negative"] else []) := by
    by_cases hneg : (stripNeg s.data).1 = true
    · rw [if_pos hneg, if_pos ((stripNeg_fst_iff _).mp hneg)]
    · rw [if_neg hneg, if_neg (fun hh => hneg ((stripNeg_fst_iff _).mpr hh))]
  by_cases hnil : s.data = []
  · simp [str_to_words, hnil] at hok
    rw [← hok, hnil]
    rfl
  · by_cases hval : validate s.data = true
    · have hfr := frac_all_digits s.data hval
      rcases hpd : parseDigits (intPartChars s.data) with e | v
      · cases e
        · have hint : intPartChars s.data = [] := (parseDigits_eq_empty_iff _).mp hpd
          simp only [str_to_words, String.toList, if_neg hnil, if_pos hval, hpd,
            Except.ok.injEq] at hok
          rw [← hok]
          unfold specTokens
          rw [hifeq, if_neg (not_not_intro hint), List.append_nil]
          exact joinWords_dotTokens _ _ hfr
        · simp [str_to_words, hnil, hval, hpd] at hok
      · obtain ⟨hne, hlt, hveq⟩ := (parseDigits_eq_ok_iff _ _).mp hpd
        simp only [str_to_words, String.toList, if_neg hnil, if_pos hval, hpd,
          Except.ok.injEq] at hok
        rw [← hok]
        unfold specTokens
        rw [hifeq, if_pos hne, ← hveq]
        exact joinWords_dotTokens _ _ hfr
    · simp [str_to_words, hnil, hval] at hok

theorem spec_c6_output_tokens_witness :
    "negative twelve point five" = joinWords (specTokens ("-12.5").toList) :=
  spec_c6_output_tokens "-12.5" "negative twelve point five" rfl

end Num2En
